import Mathlib

/-!
Verification of the `basic_encryptor` example (`src/examples/basic_encryptor.rs`)
of the `self_encryption` repository: the disk-based chunk store, the path
derivation from content-derived addresses, the data-map persistence contract,
and the encrypt/decrypt workflow of `main`.

The Rust code is shallowly embedded as follows.

* Bytes are `Nat` reduced `% 256` wherever the source type is `u8`.
* Filesystem paths are lists of components (`List String`); the conversion
  between `String` and `PathBuf` made by the source (lines 183 and 134) is
  modelled as the identity on this representation, and `PathBuf::push` is
  `pathPush` below.
* The filesystem is a partial map from paths to contents, together with a
  fault model that can inject an I/O error at each system call site
  (open, read_to_end, create, write_all, metadata); a run of the program is a
  pure function of the argument structure, the temp directory, the initial
  filesystem and the fault model.
* The SHA3-256 function comes from the external `tiny_keccak` crate; it is an
  explicit parameter `hash : List Nat → List Nat` of every definition that
  uses it.
* The `SelfEncryptor` session, the `DataMap` type with its serialisation
  (`test_helpers::serialise` / `deserialise`) and the `MAX_FILE_SIZE`
  constant are code of this repository that is not under `src/`; they are
  modelled from the spec, and each such definition carries a doc comment
  saying so.
-/

namespace SE

/-- Kinds of I/O errors the operating system can report; `other` stands for
any further kind (disk error, interrupted, ...). -/
inductive IoErrorKind where
  | notFound
  | permissionDenied
  | other (code : Nat)
deriving DecidableEq

/-- Embedding of `DiskBasedStorageError` (line 104): wraps the underlying
I/O error. -/
structure DiskBasedStorageError where
  io_error : IoErrorKind
deriving DecidableEq

/-- Filesystem state: a partial map from paths (component lists) to file
contents (byte lists). -/
structure Fs where
  files : List String → Option (List Nat)

/-- Writing a file: point update of the map. -/
def Fs.update (fs : Fs) (p : List String) (d : List Nat) : Fs :=
  ⟨fun q => if q = p then some d else fs.files q⟩

/-- Injected I/O faults, one slot per system-call site used by the program.
`openFault p` makes `File::open(p)` fail; `readFault p = some (n, e)` makes
`read_to_end` on `p` stop with error `e` after `n` bytes; `createFault`,
`writeFault` and `metaFault` do the same for `File::create`, `write_all`
and `metadata`. -/
structure FaultModel where
  openFault : List String → Option IoErrorKind
  readFault : List String → Option (Nat × IoErrorKind)
  createFault : List String → Option IoErrorKind
  writeFault : List String → Option IoErrorKind
  metaFault : List String → Option IoErrorKind

/-- The fault-free filesystem environment. -/
def noFaults : FaultModel :=
  ⟨fun _ => Option.none, fun _ => Option.none, fun _ => Option.none,
   fun _ => Option.none, fun _ => Option.none⟩

/-- Result of `read_to_end` on an opened file under an optional injected
fault: with no fault the whole content is returned; a fault `(n, e)` yields
the first `n` bytes together with the error. -/
def readToEnd (content : List Nat) : Option (Nat × IoErrorKind) → List Nat × Option IoErrorKind
  | Option.none => (content, Option.none)
  | some (n, e) => (content.take n, some e)

/-- One lowercase hex digit, as produced by the `{:02x}` format used by the
source: digits `0`-`9` then letters `a`-`f`. -/
def hexDigit (n : Nat) : Char :=
  Char.ofNat (if n < 10 then n + 48 else n + 87)

/-- Embedding of `to_hex` (line 91): `format!("{:02x}", ch)` of a byte `ch`,
always exactly two lowercase hex characters. Bytes are `Nat` reduced mod 256. -/
def to_hex (ch : Nat) : String :=
  String.mk [hexDigit (ch % 256 / 16), hexDigit (ch % 256 % 16)]

/-- Embedding of `file_name` (line 95): the concatenation of the two-digit
hex encodings of the bytes of `name`, built up by `push_str` in a loop. -/
def file_name (name : List Nat) : String :=
  name.foldl (fun s ch => s ++ to_hex ch) ""

/-- Model of `PathBuf::push`: pushing an absolute component (leading `/`)
replaces the whole path, otherwise the component is appended. -/
def pathPush (p : List String) (s : String) : List String :=
  if s.data.head? = some '/' then [s] else p ++ [s]

/-- Embedding of `DiskBasedStorage` (line 128); the source stores the
directory as a `String` rendering of the path, re-parsed by
`calculate_path`; the model keeps the component-list representation. -/
structure DiskBasedStorage where
  storage_path : List String

/-- Embedding of `DiskBasedStorage::calculate_path` (line 133): the storage
directory with the hex file name of the address pushed onto it. -/
def DiskBasedStorage.calculate_path (s : DiskBasedStorage) (name : List Nat) : List String :=
  pathPush s.storage_path (file_name name)

/-- Embedding of `DiskBasedStorage::get` (line 144): open the derived path
(`?` propagates the open error as a `DiskBasedStorageError`), then
`read_to_end` with its `Result` discarded (`let _ = ...` in the source), so
the bytes read up to any read error are returned as a success. -/
def DiskBasedStorage.get (fs : Fs) (fm : FaultModel) (s : DiskBasedStorage)
    (name : List Nat) : Except DiskBasedStorageError (List Nat) :=
  let path := s.calculate_path name
  match fm.openFault path with
  | some e => .error ⟨e⟩
  | Option.none =>
    match fs.files path with
    | Option.none => .error ⟨IoErrorKind.notFound⟩
    | some content => .ok (readToEnd content (fm.readFault path)).1

/-- Messages `main` and the storage print with `println!`; each constructor
is one `println!` site of the source, with the interpolated data as fields. -/
inductive Msg where
  | helpShown
  | chunkWritten (path : List String)
  | fileTooLarge (size : Nat)
  | metadataError (e : IoErrorKind)
  | sourceReadError (e : IoErrorKind)
  | failedToOpenTarget (t : String)
  | dataMapWritten (path : List String)
  | dataMapWriteFailed (path : List String) (e : IoErrorKind)
  | dataMapCreateFailed (path : List String) (e : IoErrorKind)
  | failedToOpenDataMap (path : List String)
  | failedToParseDataMap
  | failedToCreateDest (d : String)
  | fileWriteFailed (e : IoErrorKind)
  | fileDecryptedTo (d : String)
deriving DecidableEq

/-- Embedding of `DiskBasedStorage::put` (line 153): `File::create` at the
derived path (truncating an existing file), then `write_all`; prints
"Chunk written" on success. Returns the updated filesystem, the printed
messages, and the error if any. -/
def DiskBasedStorage.put (fs : Fs) (fm : FaultModel) (s : DiskBasedStorage)
    (name data : List Nat) : Fs × List Msg × Option DiskBasedStorageError :=
  let path := s.calculate_path name
  match fm.createFault path with
  | some e => (fs, [], some ⟨e⟩)
  | Option.none =>
    let fs1 := fs.update path []
    match fm.writeFault path with
    | some e => (fs1, [], some ⟨e⟩)
    | Option.none => (fs1.update path data, [Msg.chunkWritten path], Option.none)

/-- Embedding of `generate_address` (line 164): `sha3_256(data).to_vec()`;
the SHA3-256 function of the external crate is the parameter `hash`. -/
def DiskBasedStorage.generate_address (hash : List Nat → List Nat)
    (data : List Nat) : List Nat :=
  hash data

/-- Modelled from the spec: the `DataMap` type of the encryption engine is
missing from `src/`. Per §3 it is "metadata sufficient to reconstruct a file
from its chunks' addresses and layout", treated as opaque by this layer;
`DataMap::None` (used at line 209) is the empty reconstruction state. The
model records, per chunk in order, its storage address and its length. -/
inductive DataMap where
  | none
  | chunks (entries : List (List Nat × Nat))
deriving DecidableEq

/-- Modelled from the spec: the self-delimiting number code used inside the
data-map codec. §4.3 treats the byte format as an opaque binary contract;
the model uses a unary, zero-terminated code, which keeps the codec total
and lossless as §4.3 requires. -/
def natEncode (n : Nat) : List Nat :=
  List.replicate n 1 ++ [0]

/-- Decoder for `natEncode`; returns the value and the remaining input. -/
def parseNat : List Nat → Option (Nat × List Nat)
  | 0 :: rest => some (0, rest)
  | 1 :: rest =>
    match parseNat rest with
    | some (n, r) => some (n + 1, r)
    | Option.none => Option.none
  | _ => Option.none

/-- Decoder for a counted sequence of numbers. -/
def parseNats : Nat → List Nat → Option (List Nat × List Nat)
  | 0, bs => some ([], bs)
  | k + 1, bs =>
    match parseNat bs with
    | some (n, r) =>
      match parseNats k r with
      | some (ns, r2) => some (n :: ns, r2)
      | Option.none => Option.none
    | Option.none => Option.none

/-- Code of one data-map entry: address length, address elements, chunk
length. -/
def entryEncode (e : List Nat × Nat) : List Nat :=
  natEncode e.1.length ++ (e.1.map natEncode).flatten ++ natEncode e.2

/-- Decoder for one data-map entry. -/
def parseEntry (bs : List Nat) : Option ((List Nat × Nat) × List Nat) :=
  match parseNat bs with
  | some (len, r) =>
    match parseNats len r with
    | some (addr, r2) =>
      match parseNat r2 with
      | some (sz, r3) => some ((addr, sz), r3)
      | Option.none => Option.none
    | Option.none => Option.none
  | Option.none => Option.none

/-- Decoder for a counted sequence of entries. -/
def parseEntries : Nat → List Nat → Option (List (List Nat × Nat) × List Nat)
  | 0, bs => some ([], bs)
  | k + 1, bs =>
    match parseEntry bs with
    | some (e, r) =>
      match parseEntries k r with
      | some (es, r2) => some (e :: es, r2)
      | Option.none => Option.none
    | Option.none => Option.none

/-- Modelled from the spec: `test_helpers::serialise` (used at line 220) is
code of this repository outside `src/`. §4.3: serialisation is a lossless
binary encoding of the data map. -/
def serialise (m : DataMap) : List Nat :=
  match m with
  | DataMap.none => [0]
  | DataMap.chunks es => 1 :: (natEncode es.length ++ (es.map entryEncode).flatten)

/-- Structural decoder for a data map, returning the remaining input. -/
def parseDataMap : List Nat → Option (DataMap × List Nat)
  | 0 :: rest => some (DataMap.none, rest)
  | 1 :: rest =>
    match parseNat rest with
    | some (k, r) =>
      match parseEntries k r with
      | some (es, r2) => some (DataMap.chunks es, r2)
      | Option.none => Option.none
    | Option.none => Option.none
  | _ => Option.none

/-- Modelled from the spec: `test_helpers::deserialise` (used at line 248) is
code of this repository outside `src/`. §4.3: deserialisation of malformed
or truncated input fails (`ParseFailure`, surfaced as `Option.none` exactly
as the source consumes it with `if let Some(..)`); the whole input must be
consumed. -/
def deserialise (bs : List Nat) : Option DataMap :=
  match parseDataMap bs with
  | some (m, []) => some m
  | _ => Option.none


theorem parseNat_encode (n : Nat) (rest : List Nat) :
    parseNat (natEncode n ++ rest) = some (n, rest) := by
  induction n with
  | zero => simp [natEncode, parseNat]
  | succ k ih =>
    have hform : natEncode (k + 1) ++ rest = 1 :: (natEncode k ++ rest) := by
      simp [natEncode, List.replicate_succ]
    rw [hform]
    simp only [parseNat]
    rw [ih]

theorem parseNat_sound :
    ∀ (bs : List Nat) (n : Nat) (rest : List Nat),
      parseNat bs = some (n, rest) → bs = natEncode n ++ rest := by
  intro bs
  induction bs with
  | nil => intro n rest h; simp [parseNat] at h
  | cons b t ih =>
    intro n rest h
    match b with
    | 0 =>
      simp [parseNat] at h
      simp [natEncode, ← h.1, ← h.2]
    | 1 =>
      simp only [parseNat] at h
      match hp : parseNat t with
      | Option.none => simp only [hp] at h; exact Option.noConfusion h
      | some (m, r) =>
        simp only [hp, Option.some.injEq, Prod.mk.injEq] at h
        have ht := ih m r hp
        rw [← h.1, ← h.2, ht]
        simp [natEncode, List.replicate_succ]
    | (k + 2) =>
      simp [parseNat] at h

theorem parseNats_encode (ns : List Nat) (rs : List Nat) :
    parseNats ns.length ((ns.map natEncode).flatten ++ rs) = some (ns, rs) := by
  induction ns generalizing rs with
  | nil => simp [parseNats]
  | cons x t ih =>
    simp only [List.length_cons, List.map_cons, List.flatten_cons, List.append_assoc,
      parseNats]
    simp only [parseNat_encode]
    rw [ih]

theorem parseNats_sound :
    ∀ (k : Nat) (bs ns rest : List Nat),
      parseNats k bs = some (ns, rest) →
      ns.length = k ∧ bs = (ns.map natEncode).flatten ++ rest := by
  intro k
  induction k with
  | zero =>
    intro bs ns rest h
    simp only [parseNats, Option.some.injEq, Prod.mk.injEq] at h
    obtain ⟨h1, h2⟩ := h
    subst h1; subst h2
    simp
  | succ j ih =>
    intro bs ns rest h
    simp only [parseNats] at h
    match hp : parseNat bs with
    | Option.none => simp only [hp] at h; exact Option.noConfusion h
    | some (n, r) =>
      simp only [hp] at h
      match hq : parseNats j r with
      | Option.none => simp only [hq] at h; exact Option.noConfusion h
      | some (ms, r2) =>
        simp only [hq, Option.some.injEq, Prod.mk.injEq] at h
        obtain ⟨hlen, hr⟩ := ih r ms r2 hq
        have hb := parseNat_sound bs n r hp
        obtain ⟨h1, h2⟩ := h
        subst h2
        constructor
        · rw [← h1]; simp [hlen]
        · rw [← h1, hb, hr]; simp

theorem parseEntry_encode (e : List Nat × Nat) (rest : List Nat) :
    parseEntry (entryEncode e ++ rest) = some (e, rest) := by
  obtain ⟨addr, sz⟩ := e
  simp only [entryEncode, parseEntry, List.append_assoc]
  simp only [parseNat_encode]
  have := parseNats_encode addr (natEncode sz ++ rest)
  simp only [this, parseNat_encode]

theorem parseEntry_sound (bs : List Nat) (e : List Nat × Nat) (rest : List Nat)
    (h : parseEntry bs = some (e, rest)) : bs = entryEncode e ++ rest := by
  simp only [parseEntry] at h
  match hp : parseNat bs with
  | Option.none => simp only [hp] at h; exact Option.noConfusion h
  | some (len, r) =>
    simp only [hp] at h
    match hq : parseNats len r with
    | Option.none => simp only [hq] at h; exact Option.noConfusion h
    | some (addr, r2) =>
      simp only [hq] at h
      match hs : parseNat r2 with
      | Option.none => simp only [hs] at h; exact Option.noConfusion h
      | some (sz, r3) =>
        simp only [hs, Option.some.injEq, Prod.mk.injEq] at h
        obtain ⟨hlen, hr⟩ := parseNats_sound len r addr r2 hq
        have hb := parseNat_sound bs len r hp
        have hb2 := parseNat_sound r2 sz r3 hs
        obtain ⟨h1, h2⟩ := h
        subst h2
        rw [← h1, entryEncode]
        simp only
        rw [hb, hr, hb2, hlen]
        simp

theorem parseEntries_encode (es : List (List Nat × Nat)) (rs : List Nat) :
    parseEntries es.length ((es.map entryEncode).flatten ++ rs) = some (es, rs) := by
  induction es generalizing rs with
  | nil => simp [parseEntries]
  | cons e t ih =>
    simp only [List.length_cons, List.map_cons, List.flatten_cons, List.append_assoc,
      parseEntries]
    simp only [parseEntry_encode]
    rw [ih]

theorem parseEntries_sound :
    ∀ (k : Nat) (bs : List Nat) (es : List (List Nat × Nat)) (rest : List Nat),
      parseEntries k bs = some (es, rest) →
      es.length = k ∧ bs = (es.map entryEncode).flatten ++ rest := by
  intro k
  induction k with
  | zero =>
    intro bs es rest h
    simp only [parseEntries, Option.some.injEq, Prod.mk.injEq] at h
    obtain ⟨h1, h2⟩ := h
    subst h1; subst h2
    simp
  | succ j ih =>
    intro bs es rest h
    simp only [parseEntries] at h
    match hp : parseEntry bs with
    | Option.none => simp only [hp] at h; exact Option.noConfusion h
    | some (e, r) =>
      simp only [hp] at h
      match hq : parseEntries j r with
      | Option.none => simp only [hq] at h; exact Option.noConfusion h
      | some (ms, r2) =>
        simp only [hq, Option.some.injEq, Prod.mk.injEq] at h
        obtain ⟨hlen, hr⟩ := ih r ms r2 hq
        have hb := parseEntry_sound bs e r hp
        obtain ⟨h1, h2⟩ := h
        subst h2
        constructor
        · rw [← h1]; simp [hlen]
        · rw [← h1, hb, hr]; simp

theorem parseDataMap_encode (m : DataMap) (rest : List Nat) :
    parseDataMap (serialise m ++ rest) = some (m, rest) := by
  match m with
  | DataMap.none => simp [serialise, parseDataMap]
  | DataMap.chunks es =>
    simp only [serialise, List.cons_append, parseDataMap, List.append_assoc]
    simp only [parseNat_encode]
    have := parseEntries_encode es rest
    simp only [this]

theorem parseDataMap_sound (bs : List Nat) (m : DataMap) (rest : List Nat)
    (h : parseDataMap bs = some (m, rest)) : bs = serialise m ++ rest := by
  match bs with
  | [] => simp [parseDataMap] at h
  | 0 :: t =>
    simp only [parseDataMap, Option.some.injEq, Prod.mk.injEq] at h
    obtain ⟨h1, h2⟩ := h
    subst h2
    rw [← h1, serialise]
    rfl
  | 1 :: t =>
    simp only [parseDataMap] at h
    match hp : parseNat t with
    | Option.none => simp only [hp] at h; exact Option.noConfusion h
    | some (k, r) =>
      simp only [hp] at h
      match hq : parseEntries k r with
      | Option.none => simp only [hq] at h; exact Option.noConfusion h
      | some (es, r2) =>
        simp only [hq, Option.some.injEq, Prod.mk.injEq] at h
        obtain ⟨hkes, hr⟩ := parseEntries_sound k r es r2 hq
        have hb := parseNat_sound t k r hp
        obtain ⟨h1, h2⟩ := h
        subst h2
        rw [← h1, serialise]
        simp only [List.cons_append, List.cons.injEq, true_and]
        rw [hb, hr, hkes]
        simp
  | (b + 2) :: t => simp [parseDataMap] at h

theorem deserialise_serialise (m : DataMap) :
    deserialise (serialise m) = some m := by
  have h := parseDataMap_encode m []
  rw [List.append_nil] at h
  simp [deserialise, h]

theorem deserialise_sound (bs : List Nat) (m : DataMap)
    (h : deserialise bs = some m) : bs = serialise m := by
  simp only [deserialise] at h
  match hp : parseDataMap bs with
  | Option.none => simp only [hp] at h; exact Option.noConfusion h
  | some (m2, r) =>
    match r with
    | [] =>
      simp only [hp, Option.some.injEq] at h
      subst h
      simpa using parseDataMap_sound bs m2 [] hp
    | x :: t => simp only [hp] at h; exact Option.noConfusion h

theorem deserialise_truncated (m : DataMap) (k : Nat)
    (h : k < (serialise m).length) :
    deserialise ((serialise m).take k) = Option.none := by
  match hd : deserialise ((serialise m).take k) with
  | Option.none => rfl
  | some m2 =>
    exfalso
    have htake := deserialise_sound _ m2 hd
    have hsplit : serialise m = serialise m2 ++ (serialise m).drop k := by
      conv_lhs => rw [← List.take_append_drop k (serialise m)]
      rw [htake]
    have hfull := parseDataMap_encode m ([] : List Nat)
    rw [List.append_nil] at hfull
    have hpart := parseDataMap_encode m2 ((serialise m).drop k)
    rw [← hsplit] at hpart
    rw [hfull] at hpart
    have hdrop : (serialise m).drop k = [] :=
      (((Prod.mk.injEq _ _ _ _).mp (Option.some.inj hpart)).2).symm
    have hlen := congrArg List.length hdrop
    simp [List.length_drop] at hlen
    omega

/-- The sixteen lowercase hex characters, in value order. This is the spec
side of the path-derivation claim (§4.2: "hex-encoded (lowercase, two hex
characters per byte, no separators)"), written independently of `to_hex`. -/
def hexAlphabet : List Char :=
  "0123456789abcdef".data

/-- The filename the spec describes: for each byte, the hex character of its
high nibble then of its low nibble, nothing else. -/
def specHexFileName (name : List Nat) : String :=
  String.mk ((name.map fun b =>
    [hexAlphabet.getD (b % 256 / 16) ' ', hexAlphabet.getD (b % 256 % 16) ' ']).flatten)

theorem hexDigit_eq_getD (n : Nat) (h : n < 16) :
    hexDigit n = hexAlphabet.getD n ' ' := by
  interval_cases n <;> rfl

theorem hexDigit_mem (n : Nat) (h : n < 16) : hexDigit n ∈ hexAlphabet := by
  interval_cases n <;> decide

theorem hexDigit_inj (m n : Nat) (hm : m < 16) (hn : n < 16)
    (h : hexDigit m = hexDigit n) : m = n := by
  interval_cases m <;> interval_cases n <;> first | rfl | exact absurd h (by decide)

theorem file_name_data (name : List Nat) :
    (file_name name).data =
      (name.map fun b => [hexDigit (b % 256 / 16), hexDigit (b % 256 % 16)]).flatten := by
  suffices hgen : ∀ (s : String),
      (name.foldl (fun s ch => s ++ to_hex ch) s).data =
        s.data ++ (name.map fun b =>
          [hexDigit (b % 256 / 16), hexDigit (b % 256 % 16)]).flatten by
    simpa using hgen ""
  induction name with
  | nil => intro s; simp
  | cons b t ih =>
    intro s
    simp only [List.foldl_cons, List.map_cons, List.flatten_cons]
    rw [ih (s ++ to_hex b)]
    simp [String.data_append, to_hex]

theorem file_name_chars (name : List Nat) :
    ∀ c ∈ (file_name name).data, c ∈ hexAlphabet := by
  intro c hc
  rw [file_name_data] at hc
  simp only [List.mem_flatten, List.mem_map] at hc
  obtain ⟨l, ⟨b, _, hb⟩, hcl⟩ := hc
  rw [← hb] at hcl
  have h1 : b % 256 / 16 < 16 := by omega
  have h2 : b % 256 % 16 < 16 := by omega
  simp only [List.mem_cons, List.not_mem_nil, or_false] at hcl
  rcases hcl with h | h
  · rw [h]; exact hexDigit_mem _ h1
  · rw [h]; exact hexDigit_mem _ h2

theorem file_name_not_absolute (name : List Nat) :
    (file_name name).data.head? ≠ some '/' := by
  intro h
  match hd : (file_name name).data with
  | [] => rw [hd] at h; exact Option.noConfusion h
  | c :: t =>
    rw [hd] at h
    have hc : c ∈ (file_name name).data := by rw [hd]; exact List.mem_cons_self c t
    have := file_name_chars name c hc
    have hcs : c = '/' := by simpa using h
    rw [hcs] at this
    exact absurd this (by decide)

theorem calculate_path_eq (s : DiskBasedStorage) (name : List Nat) :
    s.calculate_path name = s.storage_path ++ [file_name name] := by
  rw [DiskBasedStorage.calculate_path, pathPush, if_neg (file_name_not_absolute name)]

theorem file_name_inj (u v : List Nat)
    (hu : ∀ b ∈ u, b < 256) (hv : ∀ b ∈ v, b < 256)
    (h : file_name u = file_name v) : u = v := by
  have hd : (file_name u).data = (file_name v).data := by rw [h]
  rw [file_name_data, file_name_data] at hd
  clear h
  induction u generalizing v with
  | nil =>
    match v with
    | [] => rfl
    | b :: t => simp at hd
  | cons a s ih =>
    match v with
    | [] => simp at hd
    | b :: t =>
      simp only [List.map_cons, List.flatten_cons, List.cons_append, List.cons.injEq,
        List.append_assoc] at hd
      obtain ⟨h1, h2, h3⟩ := hd
      have ha : a < 256 := hu a (List.mem_cons_self a s)
      have hb : b < 256 := hv b (List.mem_cons_self b t)
      have ham : a % 256 = a := Nat.mod_eq_of_lt ha
      have hbm : b % 256 = b := Nat.mod_eq_of_lt hb
      rw [ham] at h1 h2
      rw [hbm] at h1 h2
      have e1 : a / 16 = b / 16 := hexDigit_inj _ _ (by omega) (by omega) h1
      have e2 : a % 16 = b % 16 := hexDigit_inj _ _ (by omega) (by omega) h2
      have hab : a = b := by omega
      subst hab
      have hrest := ih t (fun x hx => hu x (List.mem_cons_of_mem a hx))
        (fun x hx => hv x (List.mem_cons_of_mem a hx)) (by simpa using h3)
      rw [hrest]

theorem file_name_ne_data_map (name : List Nat) : file_name name ≠ "data_map" := by
  intro h
  have hc : Char.ofNat 95 ∈ (file_name name).data := by
    rw [h]
    decide
  have := file_name_chars name _ hc
  exact absurd this (by decide)

/-- Observable storage / workflow events of a run, used to state ordering
properties: entering each branch, each chunk `put` and `get` (with the path
acted on), and the successful creation of the decrypt destination file. -/
inductive Event where
  | beginEncrypt
  | beginDecrypt
  | putChunk (path : List String)
  | getChunk (path : List String)
  | createDest (path : List String)
deriving DecidableEq

def Event.isCreateDest : Event → Bool
  | Event.createDest _ => true
  | _ => false

def Event.isGetChunk : Event → Bool
  | Event.getChunk _ => true
  | _ => false

def Event.isPutChunk : Event → Bool
  | Event.putChunk _ => true
  | _ => false

/-- The `expect` / `unwrap!` sites of `main` that abort the process instead
of reporting: one constructor per site (source line in the comment). -/
inductive PanicMsg where
  | newEncryptorExpect
  | writeExpect
  | closeExpect
  | dataMapReadUnwrap
  | readExpect
deriving DecidableEq

/-- How a run of `main` ends: returning to the shell, or a panic. -/
inductive Outcome where
  | normal
  | panicked (m : PanicMsg)
deriving DecidableEq

/-- Everything observable about a run: final filesystem, event trace,
printed messages, and how the process ended. -/
structure RunOut where
  fs : Fs
  trace : List Event
  msgs : List Msg
  out : Outcome

/-- Modelled from the spec: `self_encryption::MAX_FILE_SIZE` (used at
line 193) is repository code outside `src/`. §6: "a fixed maximum supported
source-file size (policy boundary, e.g. on the order of 1 GiB)"; the error
message at line 195 says 1GB. Modelled as 1 GiB. -/
def MAX_FILE_SIZE : Nat := 1024 * 1024 * 1024

/-- Modelled from the spec: the chunk size the external encryptor uses when
splitting the input (§4.4 encrypt step 5); its concrete value belongs to the
engine, any positive size works for the claims. -/
def MAX_CHUNK_SIZE : Nat := 1024 * 1024

/-- Splitting a byte list into consecutive chunks of at most `n` bytes.
Written with an explicit fuel argument (first `Nat`) so that the definition
is structurally recursive and computable by the kernel. -/
def chunksOfAux (n : Nat) : Nat → List Nat → List (List Nat)
  | _, [] => []
  | 0, _ => []
  | fuel + 1, x :: xs => (x :: xs).take n :: chunksOfAux n fuel ((x :: xs).drop n)

/-- Modelled from the spec: the chunking the external encryptor performs
(§4.4 encrypt step 5 — "the external encryptor performs chunking"). -/
def chunksOf (n : Nat) (xs : List Nat) : List (List Nat) :=
  chunksOfAux n xs.length xs

/-- Modelled from the spec: an encryption session (§6, "Encryption
Session"), holding the borrowed storage capability and the data map. -/
structure SelfEncryptor where
  storage : DiskBasedStorage
  data_map : DataMap

/-- Modelled from the spec: `construct(storage, optional data map) ->
session` (§6); construction has no failure mode in the model (the source
wraps it in `expect`, line 210/250). -/
def SelfEncryptor.new (storage : DiskBasedStorage) (dm : DataMap) :
    Except DiskBasedStorageError SelfEncryptor :=
  .ok ⟨storage, dm⟩

/-- Accumulated effect of storing a list of chunks. -/
structure PutOut where
  fs : Fs
  trace : List Event
  msgs : List Msg
  err : Option DiskBasedStorageError

/-- Store each chunk at its content-derived address, stopping at the first
failing `put`; records a `putChunk` event per attempt. -/
def putChunks (hash : List Nat → List Nat) (fm : FaultModel) (s : DiskBasedStorage) :
    Fs → List (List Nat) → PutOut
  | fs, [] => ⟨fs, [], [], Option.none⟩
  | fs, c :: cs =>
    let addr := DiskBasedStorage.generate_address hash c
    let p := s.calculate_path addr
    match DiskBasedStorage.put fs fm s addr c with
    | (fs1, ms, some e) => ⟨fs1, [Event.putChunk p], ms, some e⟩
    | (fs1, ms, Option.none) =>
      let r := putChunks hash fm s fs1 cs
      ⟨r.fs, Event.putChunk p :: r.trace, ms ++ r.msgs, r.err⟩

/-- Modelled from the spec: `write(session, bytes, offset)` (§4.4 encrypt
step 5): the engine chunks the bytes, invokes `put` on the chunk store for
each chunk, and records each chunk's address and length in the data map;
a chunk-store failure propagates. `main` only writes the whole content at
offset 0 (line 211), which is what the model records. -/
def SelfEncryptor.write (hash : List Nat → List Nat) (fm : FaultModel)
    (se : SelfEncryptor) (fs : Fs) (data : List Nat) (_offset : Nat) :
    PutOut × SelfEncryptor :=
  let cs := chunksOf MAX_CHUNK_SIZE data
  let r := putChunks hash fm se.storage fs cs
  (r, ⟨se.storage,
    DataMap.chunks (cs.map fun c => (DiskBasedStorage.generate_address hash c, c.length))⟩)

/-- Modelled from the spec: `close(session) -> (data map, storage)` (§4.4
encrypt step 6): hands back the finished data map and the storage handle. -/
def SelfEncryptor.close (se : SelfEncryptor) :
    Except DiskBasedStorageError (DataMap × DiskBasedStorage) :=
  .ok (se.data_map, se.storage)

/-- Modelled from the spec: `length(session)` (§4.4 decrypt step 4): the
reconstructed file's logical length, the sum of the recorded chunk
lengths. -/
def SelfEncryptor.len (se : SelfEncryptor) : Nat :=
  match se.data_map with
  | DataMap.none => 0
  | DataMap.chunks es => (es.map fun e => e.2).sum

/-- Accumulated effect of reading a list of chunks. -/
structure GetOut where
  trace : List Event
  result : Except DiskBasedStorageError (List Nat)

/-- Fetch each referenced chunk by address, concatenating the contents and
stopping at the first failing `get`; records a `getChunk` event per
attempt. -/
def getChunks (fm : FaultModel) (s : DiskBasedStorage) (fs : Fs) :
    List (List Nat × Nat) → GetOut
  | [] => ⟨[], .ok []⟩
  | e :: es =>
    let p := s.calculate_path e.1
    match DiskBasedStorage.get fs fm s e.1 with
    | .error err => ⟨[Event.getChunk p], .error err⟩
    | .ok d =>
      let r := getChunks fm s fs es
      match r.result with
      | .error err => ⟨Event.getChunk p :: r.trace, .error err⟩
      | .ok rest => ⟨Event.getChunk p :: r.trace, .ok (d ++ rest)⟩

/-- Modelled from the spec: `read(session, offset, length)` (§4.4 decrypt
step 5): the engine invokes `get` on the chunk store for each referenced
chunk, recombines them, and returns the requested range; a missing or
corrupted chunk fails the read with the propagated storage error. -/
def SelfEncryptor.read (fm : FaultModel) (se : SelfEncryptor) (fs : Fs)
    (offset len : Nat) : GetOut :=
  match se.data_map with
  | DataMap.none => ⟨[], .ok ((([] : List Nat).drop offset).take len)⟩
  | DataMap.chunks es =>
    let r := getChunks fm se.storage fs es
    match r.result with
    | .error e => ⟨r.trace, .error e⟩
    | .ok all => ⟨r.trace, .ok ((all.drop offset).take len)⟩

/-- Embedding of the `Args` struct (line 82). -/
structure Args where
  arg_target : Option String
  arg_destination : Option String
  flag_encrypt : Bool
  flag_decrypt : Bool
  flag_help : Bool

/-- Embedding of the encrypt branch of `main` (lines 189-241). The returned
`Bool` is `false` exactly when the branch executes one of the three
`return println!` statements (lines 194, 200, 206) or panics, in which case
the rest of `main` never runs. -/
def encryptBranch (hash : List Nat → List Nat) (fm : FaultModel) (args : Args)
    (storage : DiskBasedStorage) (data_map_file : List String) (fs : Fs) :
    RunOut × Bool :=
  if args.flag_encrypt && args.arg_target.isSome then
    let t := args.arg_target.getD ""
    let tPath : List String := [t]
    match fm.openFault tPath, fs.files tPath with
    | some _, _ =>
      (⟨fs, [Event.beginEncrypt], [Msg.failedToOpenTarget t], Outcome.normal⟩, true)
    | Option.none, Option.none =>
      (⟨fs, [Event.beginEncrypt], [Msg.failedToOpenTarget t], Outcome.normal⟩, true)
    | Option.none, some content =>
      match fm.metaFault tPath with
      | some e => (⟨fs, [Event.beginEncrypt], [Msg.metadataError e], Outcome.normal⟩, false)
      | Option.none =>
        if content.length > MAX_FILE_SIZE then
          (⟨fs, [Event.beginEncrypt], [Msg.fileTooLarge content.length], Outcome.normal⟩, false)
        else
          match readToEnd content (fm.readFault tPath) with
          | (_, some e) =>
            (⟨fs, [Event.beginEncrypt], [Msg.sourceReadError e], Outcome.normal⟩, false)
          | (data, Option.none) =>
            match SelfEncryptor.new storage DataMap.none with
            | .error _ =>
              (⟨fs, [Event.beginEncrypt], [], Outcome.panicked PanicMsg.newEncryptorExpect⟩,
               false)
            | .ok se =>
              let wr := SelfEncryptor.write hash fm se fs data 0
              match wr.1.err with
              | some _ =>
                (⟨wr.1.fs, Event.beginEncrypt :: wr.1.trace, wr.1.msgs,
                  Outcome.panicked PanicMsg.writeExpect⟩, false)
              | Option.none =>
                match SelfEncryptor.close wr.2 with
                | .error _ =>
                  (⟨wr.1.fs, Event.beginEncrypt :: wr.1.trace, wr.1.msgs,
                    Outcome.panicked PanicMsg.closeExpect⟩, false)
                | .ok (data_map, _old_storage) =>
                  match fm.createFault data_map_file with
                  | some e =>
                    (⟨wr.1.fs, Event.beginEncrypt :: wr.1.trace,
                      wr.1.msgs ++ [Msg.dataMapCreateFailed data_map_file e],
                      Outcome.normal⟩, true)
                  | Option.none =>
                    let fs1 := wr.1.fs.update data_map_file []
                    match fm.writeFault data_map_file with
                    | some e =>
                      (⟨fs1, Event.beginEncrypt :: wr.1.trace,
                        wr.1.msgs ++ [Msg.dataMapWriteFailed data_map_file e],
                        Outcome.normal⟩, true)
                    | Option.none =>
                      (⟨fs1.update data_map_file (serialise data_map),
                        Event.beginEncrypt :: wr.1.trace,
                        wr.1.msgs ++ [Msg.dataMapWritten data_map_file],
                        Outcome.normal⟩, true)
  else (⟨fs, [], [], Outcome.normal⟩, true)

/-- Embedding of the decrypt branch of `main` (lines 243-273). Note the
source order: the destination file is created (line 252) before the session
read (line 253-256); `read_to_end` of the data map file is wrapped in
`unwrap!` (line 246) and the session read in `expect` (line 256). -/
def decryptBranch (_hash : List Nat → List Nat) (fm : FaultModel) (args : Args)
    (storage : DiskBasedStorage) (data_map_file : List String) (fs : Fs) : RunOut :=
  if args.flag_decrypt && args.arg_destination.isSome then
    let d := args.arg_destination.getD ""
    let dPath : List String := [d]
    match fm.openFault data_map_file, fs.files data_map_file with
    | some _, _ =>
      ⟨fs, [Event.beginDecrypt], [Msg.failedToOpenDataMap data_map_file], Outcome.normal⟩
    | Option.none, Option.none =>
      ⟨fs, [Event.beginDecrypt], [Msg.failedToOpenDataMap data_map_file], Outcome.normal⟩
    | Option.none, some content =>
      match readToEnd content (fm.readFault data_map_file) with
      | (_, some _) =>
        ⟨fs, [Event.beginDecrypt], [], Outcome.panicked PanicMsg.dataMapReadUnwrap⟩
      | (bytes, Option.none) =>
        match deserialise bytes with
        | Option.none =>
          ⟨fs, [Event.beginDecrypt], [Msg.failedToParseDataMap], Outcome.normal⟩
        | some data_map =>
          match SelfEncryptor.new storage data_map with
          | .error _ =>
            ⟨fs, [Event.beginDecrypt], [], Outcome.panicked PanicMsg.newEncryptorExpect⟩
          | .ok se =>
            let length := se.len
            match fm.createFault dPath with
            | some _ =>
              ⟨fs, [Event.beginDecrypt], [Msg.failedToCreateDest d], Outcome.normal⟩
            | Option.none =>
              let fs1 := fs.update dPath []
              let r := SelfEncryptor.read fm se fs1 0 length
              match r.result with
              | .error _ =>
                ⟨fs1, Event.beginDecrypt :: Event.createDest dPath :: r.trace, [],
                 Outcome.panicked PanicMsg.readExpect⟩
              | .ok content2 =>
                match fm.writeFault dPath with
                | some e =>
                  ⟨fs1, Event.beginDecrypt :: Event.createDest dPath :: r.trace,
                   [Msg.fileWriteFailed e], Outcome.normal⟩
                | Option.none =>
                  ⟨fs1.update dPath content2,
                   Event.beginDecrypt :: Event.createDest dPath :: r.trace,
                   [Msg.fileDecryptedTo d], Outcome.normal⟩
  else ⟨fs, [], [], Outcome.normal⟩

/-- Embedding of `main` (lines 170-274): derives the chunk-store directory
under the temp directory, builds the storage handle and the data-map file
path, prints the args when `-h` was given, then runs the encrypt branch
and, unless it returned early or panicked, the decrypt branch.
`fs::create_dir` (line 181) has no observable effect in the model
(directories are implicit). -/
def main (hash : List Nat → List Nat) (tempDir : List String) (args : Args)
    (fm : FaultModel) (fs : Fs) : RunOut :=
  let chunk_store_dir := pathPush tempDir "chunk_store_test/"
  let storage : DiskBasedStorage := ⟨chunk_store_dir⟩
  let data_map_file := pathPush chunk_store_dir "data_map"
  let helpMsgs : List Msg := if args.flag_help then [Msg.helpShown] else []
  let enc := encryptBranch hash fm args storage data_map_file fs
  match enc.1.out with
  | Outcome.panicked m =>
    ⟨enc.1.fs, enc.1.trace, helpMsgs ++ enc.1.msgs, Outcome.panicked m⟩
  | Outcome.normal =>
    if enc.2 then
      let dec := decryptBranch hash fm args storage data_map_file enc.1.fs
      ⟨dec.fs, enc.1.trace ++ dec.trace, helpMsgs ++ enc.1.msgs ++ dec.msgs, dec.out⟩
    else ⟨enc.1.fs, enc.1.trace, helpMsgs ++ enc.1.msgs, Outcome.normal⟩

theorem Fs.files_update_self (fs : Fs) (p : List String) (d : List Nat) :
    (fs.update p d).files p = some d := by
  simp [Fs.update]

theorem Fs.files_update_ne (fs : Fs) (p q : List String) (d : List Nat)
    (h : q ≠ p) : (fs.update p d).files q = fs.files q := by
  simp [Fs.update, h]

theorem chunksOfAux_flatten (n : Nat) (hn : 0 < n) :
    ∀ (fuel : Nat) (xs : List Nat), xs.length ≤ fuel →
      (chunksOfAux n fuel xs).flatten = xs := by
  intro fuel
  induction fuel with
  | zero =>
    intro xs h
    match xs with
    | [] => simp [chunksOfAux]
    | x :: t => simp at h
  | succ k ih =>
    intro xs h
    match xs with
    | [] => simp [chunksOfAux]
    | x :: t =>
      simp only [chunksOfAux, List.flatten_cons]
      rw [ih ((x :: t).drop n) (by simp at h ⊢; omega)]
      exact List.take_append_drop n (x :: t)

theorem chunksOf_flatten (n : Nat) (hn : 0 < n) (xs : List Nat) :
    (chunksOf n xs).flatten = xs :=
  chunksOfAux_flatten n hn xs.length xs (Nat.le_refl _)

theorem put_noFaults (fs : Fs) (s : DiskBasedStorage) (name data : List Nat) :
    DiskBasedStorage.put fs noFaults s name data =
      ((fs.update (s.calculate_path name) []).update (s.calculate_path name) data,
       [Msg.chunkWritten (s.calculate_path name)], Option.none) := rfl

theorem get_noFaults (fs : Fs) (s : DiskBasedStorage) (name content : List Nat)
    (h : fs.files (s.calculate_path name) = some content) :
    DiskBasedStorage.get fs noFaults s name = .ok content := by
  simp only [DiskBasedStorage.get]
  have hop : noFaults.openFault (s.calculate_path name) = Option.none := rfl
  rw [hop, h]
  rfl

theorem putChunks_noFaults_err (hash : List Nat → List Nat)
    (s : DiskBasedStorage) :
    ∀ (fs : Fs) (cs : List (List Nat)),
      (putChunks hash noFaults s fs cs).err = Option.none := by
  intro fs cs
  induction cs generalizing fs with
  | nil => rfl
  | cons c t ih =>
    simp only [putChunks, put_noFaults]
    exact ih _

theorem putChunks_noFaults_files_ne (hash : List Nat → List Nat)
    (s : DiskBasedStorage) :
    ∀ (fs : Fs) (cs : List (List Nat)) (q : List String),
      (∀ c ∈ cs, q ≠ s.calculate_path (DiskBasedStorage.generate_address hash c)) →
      (putChunks hash noFaults s fs cs).fs.files q = fs.files q := by
  intro fs cs
  induction cs generalizing fs with
  | nil => intro q _; rfl
  | cons c t ih =>
    intro q hq
    simp only [putChunks, put_noFaults]
    rw [ih _ q (fun x hx => hq x (List.mem_cons_of_mem c hx))]
    rw [Fs.files_update_ne _ _ _ _ (hq c (List.mem_cons_self c t)),
        Fs.files_update_ne _ _ _ _ (hq c (List.mem_cons_self c t))]

theorem putChunks_noFaults_files_mem (hash : List Nat → List Nat)
    (s : DiskBasedStorage) :
    ∀ (fs : Fs) (cs : List (List Nat)),
      (∀ c1 ∈ cs, ∀ c2 ∈ cs,
        s.calculate_path (DiskBasedStorage.generate_address hash c1) =
          s.calculate_path (DiskBasedStorage.generate_address hash c2) → c1 = c2) →
      ∀ c ∈ cs,
        (putChunks hash noFaults s fs cs).fs.files
          (s.calculate_path (DiskBasedStorage.generate_address hash c)) = some c := by
  intro fs cs
  induction cs generalizing fs with
  | nil => intro _ c hc; exact absurd hc (List.not_mem_nil c)
  | cons c0 t ih =>
    intro hinj c hc
    simp only [putChunks, put_noFaults]
    have hinjt : ∀ c1 ∈ t, ∀ c2 ∈ t,
        s.calculate_path (DiskBasedStorage.generate_address hash c1) =
          s.calculate_path (DiskBasedStorage.generate_address hash c2) → c1 = c2 :=
      fun a ha b hb hab =>
        hinj a (List.mem_cons_of_mem c0 ha) b (List.mem_cons_of_mem c0 hb) hab
    rcases List.mem_cons.mp hc with hceq | hct
    · subst hceq
      by_cases hmem : ∃ c2 ∈ t,
          s.calculate_path (DiskBasedStorage.generate_address hash c2) =
            s.calculate_path (DiskBasedStorage.generate_address hash c)
      · obtain ⟨c2, hc2t, hc2p⟩ := hmem
        have hc2c : c2 = c :=
          hinj c2 (List.mem_cons_of_mem _ hc2t) c (List.mem_cons_self c t) hc2p
        subst hc2c
        exact ih _ hinjt c2 hc2t
      · push_neg at hmem
        rw [putChunks_noFaults_files_ne hash s _ t _
          (fun x hx h => hmem x hx h.symm)]
        exact Fs.files_update_self _ _ _
    · exact ih _ hinjt c hct

theorem putChunks_trace_put (hash : List Nat → List Nat) (fm : FaultModel)
    (s : DiskBasedStorage) :
    ∀ (fs : Fs) (cs : List (List Nat)),
      ∀ e ∈ (putChunks hash fm s fs cs).trace, e.isPutChunk = true := by
  intro fs cs
  induction cs generalizing fs with
  | nil => intro e he; exact absurd he (List.not_mem_nil e)
  | cons c t ih =>
    intro e he
    simp only [putChunks] at he
    match hput : DiskBasedStorage.put fs fm s (DiskBasedStorage.generate_address hash c) c with
    | (fs1, ms, some err) =>
      rw [hput] at he
      simp at he
      rw [he]; rfl
    | (fs1, ms, Option.none) =>
      rw [hput] at he
      simp only [List.mem_cons] at he
      rcases he with he | he
      · rw [he]; rfl
      · exact ih fs1 e he

theorem getChunks_trace_get (fm : FaultModel) (s : DiskBasedStorage) (fs : Fs) :
    ∀ (es : List (List Nat × Nat)),
      ∀ e ∈ (getChunks fm s fs es).trace, e.isGetChunk = true := by
  intro es
  induction es with
  | nil => intro e he; exact absurd he (List.not_mem_nil e)
  | cons a t ih =>
    intro e he
    simp only [getChunks] at he
    match hget : DiskBasedStorage.get fs fm s a.1 with
    | .error err =>
      rw [hget] at he
      simp at he
      rw [he]; rfl
    | .ok d =>
      rw [hget] at he
      match hr : (getChunks fm s fs t).result with
      | .error err =>
        rw [hr] at he
        simp only [List.mem_cons] at he
        rcases he with he | he
        · rw [he]; rfl
        · exact ih e he
      | .ok rest =>
        rw [hr] at he
        simp only [List.mem_cons] at he
        rcases he with he | he
        · rw [he]; rfl
        · exact ih e he

theorem getChunks_noFaults_ok (hash : List Nat → List Nat) (s : DiskBasedStorage)
    (fs : Fs) :
    ∀ (cs : List (List Nat)),
      (∀ c ∈ cs,
        fs.files (s.calculate_path (DiskBasedStorage.generate_address hash c)) = some c) →
      (getChunks noFaults s fs
        (cs.map fun c => (DiskBasedStorage.generate_address hash c, c.length))).result =
        .ok cs.flatten := by
  intro cs
  induction cs with
  | nil => intro _; rfl
  | cons c t ih =>
    intro hmem
    simp only [List.map_cons, getChunks]
    rw [get_noFaults fs s _ c (hmem c (List.mem_cons_self c t))]
    have := ih (fun x hx => hmem x (List.mem_cons_of_mem c hx))
    rw [this]
    simp

theorem noFaults_open (p : List String) : noFaults.openFault p = Option.none := rfl

theorem noFaults_read (p : List String) : noFaults.readFault p = Option.none := rfl

theorem noFaults_create (p : List String) : noFaults.createFault p = Option.none := rfl

theorem noFaults_write (p : List String) : noFaults.writeFault p = Option.none := rfl

theorem noFaults_meta (p : List String) : noFaults.metaFault p = Option.none := rfl

theorem encryptBranch_trace_shape (hash : List Nat → List Nat) (fm : FaultModel)
    (args : Args) (storage : DiskBasedStorage) (dmf : List String) (fs : Fs) :
    ∀ e ∈ (encryptBranch hash fm args storage dmf fs).1.trace,
      e = Event.beginEncrypt ∨ e.isPutChunk = true := by
  intro e he
  unfold encryptBranch at he
  simp only [SelfEncryptor.new, SelfEncryptor.close, SelfEncryptor.write] at he
  repeat' split at he
  all_goals
    first
    | exact absurd he (List.not_mem_nil e)
    | (simp only [List.mem_singleton] at he; subst he; exact Or.inl rfl)
    | (simp only [List.mem_cons] at he;
       rcases he with he | he
       · exact Or.inl he
       · exact Or.inr (putChunks_trace_put hash fm storage _ _ e he))

theorem encryptBranch_out_panic (hash : List Nat → List Nat) (fm : FaultModel)
    (args : Args) (storage : DiskBasedStorage) (dmf : List String) (fs : Fs)
    (m : PanicMsg)
    (h : (encryptBranch hash fm args storage dmf fs).1.out = Outcome.panicked m) :
    m = PanicMsg.writeExpect := by
  unfold encryptBranch at h
  simp only [SelfEncryptor.new, SelfEncryptor.close, SelfEncryptor.write] at h
  repeat' split at h
  all_goals simp_all

theorem decryptBranch_trace_cases (hash : List Nat → List Nat) (fm : FaultModel)
    (args : Args) (storage : DiskBasedStorage) (dmf : List String) (fs : Fs) :
    (decryptBranch hash fm args storage dmf fs).trace = [] ∨
    (decryptBranch hash fm args storage dmf fs).trace = [Event.beginDecrypt] ∨
    ∃ p g, (decryptBranch hash fm args storage dmf fs).trace =
        Event.beginDecrypt :: Event.createDest p :: g ∧ ∀ e ∈ g, e.isGetChunk = true := by
  unfold decryptBranch
  simp only [SelfEncryptor.new, SelfEncryptor.read]
  repeat' split
  all_goals
    first
    | exact Or.inl rfl
    | exact Or.inr (Or.inl rfl)
    | (refine Or.inr (Or.inr ⟨_, _, rfl, ?_⟩)
       intro e he
       first
       | exact absurd he (List.not_mem_nil e)
       | exact getChunks_trace_get fm _ _ _ e he)

theorem decryptBranch_out_panic (hash : List Nat → List Nat) (fm : FaultModel)
    (args : Args) (storage : DiskBasedStorage) (dmf : List String) (fs : Fs)
    (m : PanicMsg)
    (h : (decryptBranch hash fm args storage dmf fs).out = Outcome.panicked m) :
    m = PanicMsg.dataMapReadUnwrap ∨ m = PanicMsg.readExpect := by
  unfold decryptBranch at h
  simp only [SelfEncryptor.new, SelfEncryptor.read] at h
  repeat' split at h
  all_goals simp_all

theorem encryptBranch_guard_false (hash : List Nat → List Nat) (fm : FaultModel)
    (args : Args) (storage : DiskBasedStorage) (dmf : List String) (fs : Fs)
    (h : (args.flag_encrypt && args.arg_target.isSome) = false) :
    encryptBranch hash fm args storage dmf fs = (⟨fs, [], [], Outcome.normal⟩, true) := by
  unfold encryptBranch
  rw [h]
  rfl

theorem decryptBranch_guard_false (hash : List Nat → List Nat) (fm : FaultModel)
    (args : Args) (storage : DiskBasedStorage) (dmf : List String) (fs : Fs)
    (h : (args.flag_decrypt && args.arg_destination.isSome) = false) :
    decryptBranch hash fm args storage dmf fs = ⟨fs, [], [], Outcome.normal⟩ := by
  unfold decryptBranch
  rw [h]
  rfl

theorem decryptBranch_trace_no_beginEncrypt (hash : List Nat → List Nat)
    (fm : FaultModel) (args : Args) (storage : DiskBasedStorage)
    (dmf : List String) (fs : Fs) :
    Event.beginEncrypt ∉ (decryptBranch hash fm args storage dmf fs).trace := by
  intro hmem
  rcases decryptBranch_trace_cases hash fm args storage dmf fs with h | h | ⟨p, g, h, hg⟩
  · rw [h] at hmem; exact absurd hmem (List.not_mem_nil _)
  · rw [h] at hmem; simp at hmem
  · rw [h] at hmem
    simp only [List.mem_cons] at hmem
    rcases hmem with h1 | h1 | h1
    · exact Event.noConfusion h1
    · exact Event.noConfusion h1
    · have := hg _ h1
      simp [Event.isGetChunk] at this

theorem encryptBranch_trace_no_beginDecrypt (hash : List Nat → List Nat)
    (fm : FaultModel) (args : Args) (storage : DiskBasedStorage)
    (dmf : List String) (fs : Fs) :
    Event.beginDecrypt ∉ (encryptBranch hash fm args storage dmf fs).1.trace := by
  intro hmem
  rcases encryptBranch_trace_shape hash fm args storage dmf fs _ hmem with h | h
  · exact Event.noConfusion h
  · simp [Event.isPutChunk] at h

/-- The data map the modelled engine produces for a given content. -/
def dmOf (hash : List Nat → List Nat) (data : List Nat) : DataMap :=
  DataMap.chunks ((chunksOf MAX_CHUNK_SIZE data).map fun c =>
    (DiskBasedStorage.generate_address hash c, c.length))

theorem encryptBranch_clean (hash : List Nat → List Nat) (args : Args)
    (storage : DiskBasedStorage) (dmf : List String) (fs : Fs) (t : String)
    (data : List Nat)
    (h1 : args.flag_encrypt = true) (h2 : args.arg_target = some t)
    (h3 : fs.files [t] = some data)
    (h4 : data.length ≤ MAX_FILE_SIZE) :
    encryptBranch hash noFaults args storage dmf fs =
      (⟨((putChunks hash noFaults storage fs
            (chunksOf MAX_CHUNK_SIZE data)).fs.update dmf []).update dmf
          (serialise (dmOf hash data)),
        Event.beginEncrypt ::
          (putChunks hash noFaults storage fs (chunksOf MAX_CHUNK_SIZE data)).trace,
        (putChunks hash noFaults storage fs (chunksOf MAX_CHUNK_SIZE data)).msgs ++
          [Msg.dataMapWritten dmf],
        Outcome.normal⟩, true) := by
  unfold encryptBranch
  have hno : ¬ data.length > MAX_FILE_SIZE := by omega
  rw [h2]
  simp only [h1, Option.isSome_some, Bool.and_self, if_true, Option.getD_some,
    noFaults_open, noFaults_meta, noFaults_read, noFaults_create, noFaults_write,
    h3, if_neg hno, readToEnd, SelfEncryptor.new, SelfEncryptor.write,
    SelfEncryptor.close, putChunks_noFaults_err]
  rfl

theorem decryptBranch_clean (hash : List Nat → List Nat) (args : Args)
    (storage : DiskBasedStorage) (dmf : List String) (fs : Fs) (d : String)
    (cs : List (List Nat))
    (h1 : args.flag_decrypt = true) (h2 : args.arg_destination = some d)
    (hdm : fs.files dmf = some (serialise (DataMap.chunks
      (cs.map fun c => (DiskBasedStorage.generate_address hash c, c.length)))))
    (hch : ∀ c ∈ cs, (fs.update [d] []).files
      (storage.calculate_path (DiskBasedStorage.generate_address hash c)) = some c) :
    decryptBranch hash noFaults args storage dmf fs =
      ⟨(fs.update [d] []).update [d] cs.flatten,
       Event.beginDecrypt :: Event.createDest [d] ::
         (getChunks noFaults storage (fs.update [d] [])
           (cs.map fun c => (DiskBasedStorage.generate_address hash c, c.length))).trace,
       [Msg.fileDecryptedTo d], Outcome.normal⟩ := by
  have hlen : ((cs.map fun c =>
      (DiskBasedStorage.generate_address hash c, c.length)).map fun e => e.2).sum =
      cs.flatten.length := by
    simp only [List.map_map, List.length_flatten]
    rfl
  unfold decryptBranch
  rw [h2]
  simp only [h1, Option.isSome_some, Bool.and_self, if_true, Option.getD_some,
    noFaults_open, noFaults_read, noFaults_create, noFaults_write, hdm, readToEnd,
    deserialise_serialise, SelfEncryptor.new, SelfEncryptor.len, SelfEncryptor.read,
    getChunks_noFaults_ok hash storage (fs.update [d] []) cs hch,
    List.drop_zero, hlen, List.take_length]

theorem pathPush_not_abs (p : List String) (s : String)
    (h : s.data.head? ≠ some '/') : pathPush p s = p ++ [s] := by
  unfold pathPush
  rw [if_neg h]

theorem chunkStoreDir_eq (tempDir : List String) :
    pathPush tempDir "chunk_store_test/" = tempDir ++ ["chunk_store_test/"] :=
  pathPush_not_abs _ _ (by decide)

theorem dataMapFile_eq (tempDir : List String) :
    pathPush (pathPush tempDir "chunk_store_test/") "data_map" =
      tempDir ++ ["chunk_store_test/", "data_map"] := by
  rw [chunkStoreDir_eq, pathPush_not_abs _ _ (by decide)]
  simp

theorem chunkPath_eq (tempDir : List String) (name : List Nat) :
    DiskBasedStorage.calculate_path ⟨pathPush tempDir "chunk_store_test/"⟩ name =
      tempDir ++ ["chunk_store_test/", file_name name] := by
  rw [calculate_path_eq, chunkStoreDir_eq]
  simp

theorem chunkPath_ne_dataMapFile (tempDir : List String) (name : List Nat) :
    DiskBasedStorage.calculate_path ⟨pathPush tempDir "chunk_store_test/"⟩ name ≠
      pathPush (pathPush tempDir "chunk_store_test/") "data_map" := by
  rw [chunkPath_eq, dataMapFile_eq]
  intro h
  simp at h
  exact file_name_ne_data_map name h

theorem singleton_ne_chunkPath (tempDir : List String) (y : String) (name : List Nat) :
    [y] ≠ DiskBasedStorage.calculate_path ⟨pathPush tempDir "chunk_store_test/"⟩ name := by
  rw [chunkPath_eq]
  intro h
  have := congrArg List.length h
  simp at this

theorem singleton_ne_dataMapFile (tempDir : List String) (y : String) :
    [y] ≠ pathPush (pathPush tempDir "chunk_store_test/") "data_map" := by
  rw [dataMapFile_eq]
  intro h
  have := congrArg List.length h
  simp at this


theorem main_fs_encrypt_clean (hash : List Nat → List Nat) (tempDir : List String)
    (args : Args) (fs : Fs) (t : String) (data : List Nat)
    (h1 : args.flag_encrypt = true) (h2 : args.arg_target = some t)
    (h3 : fs.files [t] = some data)
    (h4 : data.length ≤ MAX_FILE_SIZE)
    (h5 : (args.flag_decrypt && args.arg_destination.isSome) = false) :
    (main hash tempDir args noFaults fs).fs =
      ((putChunks hash noFaults ⟨pathPush tempDir "chunk_store_test/"⟩ fs
          (chunksOf MAX_CHUNK_SIZE data)).fs.update
        (pathPush (pathPush tempDir "chunk_store_test/") "data_map") []).update
        (pathPush (pathPush tempDir "chunk_store_test/") "data_map")
        (serialise (dmOf hash data)) := by
  simp only [main]
  rw [encryptBranch_clean hash args ⟨pathPush tempDir "chunk_store_test/"⟩
    (pathPush (pathPush tempDir "chunk_store_test/") "data_map") fs t data h1 h2 h3 h4]
  rw [decryptBranch_guard_false hash noFaults args ⟨pathPush tempDir "chunk_store_test/"⟩
    (pathPush (pathPush tempDir "chunk_store_test/") "data_map") _ h5]
  rfl

theorem main_fs_decrypt_clean (hash : List Nat → List Nat) (tempDir : List String)
    (args : Args) (fs : Fs) (d : String) (cs : List (List Nat))
    (h1 : args.flag_decrypt = true) (h2 : args.arg_destination = some d)
    (h5 : (args.flag_encrypt && args.arg_target.isSome) = false)
    (hdm : fs.files (pathPush (pathPush tempDir "chunk_store_test/") "data_map") =
      some (serialise (DataMap.chunks
        (cs.map fun c => (DiskBasedStorage.generate_address hash c, c.length)))))
    (hch : ∀ c ∈ cs, (fs.update [d] []).files
      (DiskBasedStorage.calculate_path ⟨pathPush tempDir "chunk_store_test/"⟩
        (DiskBasedStorage.generate_address hash c)) = some c) :
    (main hash tempDir args noFaults fs).fs =
      (fs.update [d] []).update [d] cs.flatten := by
  simp only [main]
  rw [encryptBranch_guard_false hash noFaults args ⟨pathPush tempDir "chunk_store_test/"⟩
    (pathPush (pathPush tempDir "chunk_store_test/") "data_map") fs h5]
  rw [decryptBranch_clean hash args ⟨pathPush tempDir "chunk_store_test/"⟩
    (pathPush (pathPush tempDir "chunk_store_test/") "data_map") fs d cs h1 h2 hdm hch]
  rfl

/-- C1: for every byte sequence whose length does not exceed the size limit
(including the empty sequence), running the encrypt workflow of `main` on a
file holding those bytes and then running the decrypt workflow of `main` on
the persisted data map writes a destination file whose content equals the
original bytes exactly, byte for byte. The hypotheses are the spec's own
assumptions: the content hash returns byte sequences and is collision-free
on the chunks of this input (§3: "address collisions imply content
equality"). -/
theorem C1_encrypt_then_decrypt_roundtrip
    (hash : List Nat → List Nat) (data : List Nat) (tempDir : List String)
    (t d : String)
    (hinj : ∀ c1 ∈ chunksOf MAX_CHUNK_SIZE data, ∀ c2 ∈ chunksOf MAX_CHUNK_SIZE data,
      hash c1 = hash c2 → c1 = c2)
    (hbytes : ∀ c ∈ chunksOf MAX_CHUNK_SIZE data, ∀ b ∈ hash c, b < 256)
    (hsize : data.length ≤ MAX_FILE_SIZE) :
    (main hash tempDir ⟨Option.none, some d, false, true, false⟩ noFaults
      (main hash tempDir ⟨some t, Option.none, true, false, false⟩ noFaults
        ⟨fun p => if p = [t] then some data else Option.none⟩).fs).fs.files [d] =
      some data := by
  have hpathinj : ∀ c1 ∈ chunksOf MAX_CHUNK_SIZE data,
      ∀ c2 ∈ chunksOf MAX_CHUNK_SIZE data,
      DiskBasedStorage.calculate_path ⟨pathPush tempDir "chunk_store_test/"⟩
          (DiskBasedStorage.generate_address hash c1) =
        DiskBasedStorage.calculate_path ⟨pathPush tempDir "chunk_store_test/"⟩
          (DiskBasedStorage.generate_address hash c2) → c1 = c2 := by
    intro c1 hc1 c2 hc2 hp
    rw [calculate_path_eq, calculate_path_eq] at hp
    simp at hp
    exact hinj c1 hc1 c2 hc2
      (file_name_inj _ _ (hbytes c1 hc1) (hbytes c2 hc2) hp)
  have hrun1 := main_fs_encrypt_clean hash tempDir
    ⟨some t, Option.none, true, false, false⟩
    ⟨fun p => if p = [t] then some data else Option.none⟩ t data rfl rfl
    (by simp) hsize rfl
  rw [hrun1]
  have hdm1 : (((putChunks hash noFaults ⟨pathPush tempDir "chunk_store_test/"⟩
      ⟨fun p => if p = [t] then some data else Option.none⟩
      (chunksOf MAX_CHUNK_SIZE data)).fs.update
        (pathPush (pathPush tempDir "chunk_store_test/") "data_map") []).update
        (pathPush (pathPush tempDir "chunk_store_test/") "data_map")
        (serialise (dmOf hash data))).files
      (pathPush (pathPush tempDir "chunk_store_test/") "data_map") =
      some (serialise (DataMap.chunks ((chunksOf MAX_CHUNK_SIZE data).map fun c =>
        (DiskBasedStorage.generate_address hash c, c.length)))) := by
    rw [Fs.files_update_self]
    rfl
  have hch2 : ∀ c ∈ chunksOf MAX_CHUNK_SIZE data,
      ((((putChunks hash noFaults ⟨pathPush tempDir "chunk_store_test/"⟩
        ⟨fun p => if p = [t] then some data else Option.none⟩
        (chunksOf MAX_CHUNK_SIZE data)).fs.update
          (pathPush (pathPush tempDir "chunk_store_test/") "data_map") []).update
          (pathPush (pathPush tempDir "chunk_store_test/") "data_map")
          (serialise (dmOf hash data))).update [d] []).files
        (DiskBasedStorage.calculate_path ⟨pathPush tempDir "chunk_store_test/"⟩
          (DiskBasedStorage.generate_address hash c)) = some c := by
    intro c hc
    rw [Fs.files_update_ne _ _ _ _ (Ne.symm (singleton_ne_chunkPath tempDir d _)),
        Fs.files_update_ne _ _ _ _ (chunkPath_ne_dataMapFile tempDir _),
        Fs.files_update_ne _ _ _ _ (chunkPath_ne_dataMapFile tempDir _)]
    exact putChunks_noFaults_files_mem hash ⟨pathPush tempDir "chunk_store_test/"⟩
      _ (chunksOf MAX_CHUNK_SIZE data) hpathinj c hc
  have hrun2 := main_fs_decrypt_clean hash tempDir
    ⟨Option.none, some d, false, true, false⟩
    (((putChunks hash noFaults ⟨pathPush tempDir "chunk_store_test/"⟩
      ⟨fun p => if p = [t] then some data else Option.none⟩
      (chunksOf MAX_CHUNK_SIZE data)).fs.update
        (pathPush (pathPush tempDir "chunk_store_test/") "data_map") []).update
        (pathPush (pathPush tempDir "chunk_store_test/") "data_map")
        (serialise (dmOf hash data)))
    d (chunksOf MAX_CHUNK_SIZE data) rfl rfl rfl hdm1 hch2
  rw [hrun2]
  rw [Fs.files_update_self]
  rw [chunksOf_flatten MAX_CHUNK_SIZE (by norm_num [MAX_CHUNK_SIZE]) data]

/-- Witness for C1 at a concrete instance: one byte of content, a concrete
injective-on-this-input hash. -/
theorem C1_encrypt_then_decrypt_roundtrip_witness :
    (main (fun _ => [0]) ["tmp"] ⟨Option.none, some "out", false, true, false⟩ noFaults
      (main (fun _ => [0]) ["tmp"] ⟨some "f", Option.none, true, false, false⟩ noFaults
        ⟨fun p => if p = ["f"] then some [7] else Option.none⟩).fs).fs.files ["out"] =
      some [7] :=
  C1_encrypt_then_decrypt_roundtrip (fun _ => [0]) [7] ["tmp"] "f" "out"
    (by decide) (by decide) (by decide)

/-- C2: after a successful `put` of chunk bytes `c` at the address
`generate_address(c)`, with no intervening overwrite (the filesystem the
`put` produced is the one read) and no injected fault on the read side, a
subsequent `get` at that address returns exactly `c`. -/
theorem C2_put_then_get (hash : List Nat → List Nat) (fm1 fm2 : FaultModel)
    (fs : Fs) (s : DiskBasedStorage) (c : List Nat) (fs2 : Fs) (ms : List Msg)
    (hput : DiskBasedStorage.put fs fm1 s
      (DiskBasedStorage.generate_address hash c) c = (fs2, ms, Option.none))
    (hopen : fm2.openFault
      (s.calculate_path (DiskBasedStorage.generate_address hash c)) = Option.none)
    (hread : fm2.readFault
      (s.calculate_path (DiskBasedStorage.generate_address hash c)) = Option.none) :
    DiskBasedStorage.get fs2 fm2 s (DiskBasedStorage.generate_address hash c) =
      .ok c := by
  simp only [DiskBasedStorage.put] at hput
  match hcf : fm1.createFault (s.calculate_path (DiskBasedStorage.generate_address hash c)) with
  | some e => simp only [hcf, Prod.mk.injEq] at hput; exact absurd hput.2.2 (by simp)
  | Option.none =>
    simp only [hcf] at hput
    match hwf : fm1.writeFault (s.calculate_path (DiskBasedStorage.generate_address hash c)) with
    | some e => simp only [hwf, Prod.mk.injEq] at hput; exact absurd hput.2.2 (by simp)
    | Option.none =>
      simp only [hwf, Prod.mk.injEq] at hput
      obtain ⟨hfs2, _, _⟩ := hput
      simp only [DiskBasedStorage.get, hopen, ← hfs2, Fs.files_update_self, hread]
      rfl

/-- Witness for C2 at a concrete instance. -/
theorem C2_put_then_get_witness :
    DiskBasedStorage.get
      ((((⟨fun _ => Option.none⟩ : Fs).update
          (DiskBasedStorage.calculate_path ⟨["d"]⟩
            (DiskBasedStorage.generate_address (fun _ => [0]) [5])) []).update
          (DiskBasedStorage.calculate_path ⟨["d"]⟩
            (DiskBasedStorage.generate_address (fun _ => [0]) [5])) [5]))
      noFaults ⟨["d"]⟩ (DiskBasedStorage.generate_address (fun _ => [0]) [5]) =
      .ok [5] :=
  C2_put_then_get (fun _ => [0]) noFaults noFaults ⟨fun _ => Option.none⟩ ⟨["d"]⟩
    [5] _ _ (put_noFaults _ _ _ _) rfl rfl

def c3S : DiskBasedStorage := ⟨["d"]⟩

def c3Fs : Fs :=
  ⟨fun p => if p = c3S.calculate_path [0] then some [1, 2, 3] else Option.none⟩

def c3Fm : FaultModel :=
  ⟨fun _ => Option.none,
   fun p => if p = c3S.calculate_path [0] then some (1, IoErrorKind.other 0) else Option.none,
   fun _ => Option.none, fun _ => Option.none, fun _ => Option.none⟩

/-- C3 counterexample: a read error injected after a successful open
(a "disk error" mid-read) does not make `get` fail with IOFailure — the
source discards the `read_to_end` result, and `get` returns the partial
bytes as a success. -/
theorem C3_counterexample :
    c3Fm.readFault (c3S.calculate_path [0]) = some (1, IoErrorKind.other 0) ∧
    DiskBasedStorage.get c3Fs c3Fm c3S [0] = .ok [1] := by
  constructor
  · simp [c3Fm]
  · simp [DiskBasedStorage.get, c3Fm, c3Fs, readToEnd]

/-- C3 amended: `get` fails with NotFound when no file exists at the derived
path and the open itself does not fault; an error raised at open time
(permission denied and the like) is returned as an IOFailure wrapping that
error; but an error during the read after a successful open is ignored —
`get` returns the bytes read up to the error. In particular `get` never
returns content for an address that was never written. -/
theorem C3_get_error_amended (fs : Fs) (fm : FaultModel) (s : DiskBasedStorage)
    (name : List Nat) :
    (fm.openFault (s.calculate_path name) = Option.none →
      fs.files (s.calculate_path name) = Option.none →
      DiskBasedStorage.get fs fm s name = .error ⟨IoErrorKind.notFound⟩) ∧
    (∀ e, fm.openFault (s.calculate_path name) = some e →
      DiskBasedStorage.get fs fm s name = .error ⟨e⟩) ∧
    (∀ content, fm.openFault (s.calculate_path name) = Option.none →
      fs.files (s.calculate_path name) = some content →
      DiskBasedStorage.get fs fm s name =
        .ok (readToEnd content (fm.readFault (s.calculate_path name))).1) := by
  refine ⟨?_, ?_, ?_⟩
  · intro h1 h2
    simp only [DiskBasedStorage.get, h1, h2]
  · intro e h1
    simp only [DiskBasedStorage.get, h1]
  · intro content h1 h2
    simp only [DiskBasedStorage.get, h1, h2]

/-- Witness for the amended C3: an address never written yields NotFound. -/
theorem C3_get_error_amended_witness :
    DiskBasedStorage.get ⟨fun _ => Option.none⟩ noFaults ⟨["d"]⟩ [1] =
      .error ⟨IoErrorKind.notFound⟩ :=
  (C3_get_error_amended ⟨fun _ => Option.none⟩ noFaults ⟨["d"]⟩ [1]).1 rfl rfl

def c4Fs : Fs := ⟨fun p => if p = ["f"] then some [1] else Option.none⟩

def c4Fm : FaultModel :=
  ⟨fun _ => Option.none, fun _ => Option.none,
   fun p => if p = ["tmp", "chunk_store_test/", file_name [0]]
     then some IoErrorKind.permissionDenied else Option.none,
   fun _ => Option.none, fun _ => Option.none⟩

/-- C4 counterexample: a storage `put` failure during the encryption
session's write (here: `File::create` of the chunk file denied) does not get
reported and returned — the `expect` at line 213 panics the process. -/
theorem C4_counterexample :
    (main (fun _ => [0]) ["tmp"] ⟨some "f", Option.none, true, false, false⟩
      c4Fm c4Fs).out = Outcome.panicked PanicMsg.writeExpect := by
  decide

/-- C4 amended: every error is reported as a message and the run returns
normally, except that a storage failure during the encryption session's
write (`expect`, line 213), a read failure on the opened data map file
(`unwrap!`, line 246), and a storage failure during the session's read
(`expect`, line 256) panic the process: these are the only three panic
sites reachable in any run. -/
theorem C4_panics_only_at_session_or_data_map_read (hash : List Nat → List Nat)
    (tempDir : List String) (args : Args) (fm : FaultModel) (fs : Fs) (m : PanicMsg)
    (h : (main hash tempDir args fm fs).out = Outcome.panicked m) :
    m = PanicMsg.writeExpect ∨ m = PanicMsg.dataMapReadUnwrap ∨
      m = PanicMsg.readExpect := by
  simp only [main] at h
  split at h
  · next m2 heq =>
      simp only at h
      cases h
      exact Or.inl (encryptBranch_out_panic hash fm args _ _ fs _ heq)
  · next heq =>
      split at h
      · simp only at h
        exact Or.inr (decryptBranch_out_panic hash fm args _ _ _ _ h)
      · simp at h

/-- Witness for the amended C4 at a concrete panicking run. -/
theorem C4_panics_only_at_session_or_data_map_read_witness :
    PanicMsg.writeExpect = PanicMsg.writeExpect ∨
      PanicMsg.writeExpect = PanicMsg.dataMapReadUnwrap ∨
      PanicMsg.writeExpect = PanicMsg.readExpect :=
  C4_panics_only_at_session_or_data_map_read (fun _ => [0]) ["tmp"]
    ⟨some "f", Option.none, true, false, false⟩ c4Fm c4Fs PanicMsg.writeExpect
    (by decide)

/-- The argument shapes the docopt usage patterns of the source (lines
71-80) can produce: `-h` alone, `-e <target>`, or `-d <destination>`.
Modelled from the spec (§6: "Exactly one action flag is meaningful per
run"); the docopt crate enforcing the USAGE string is external glue. -/
def ArgsValid (a : Args) : Prop :=
  (a.flag_help = true ∧ a.flag_encrypt = false ∧ a.flag_decrypt = false ∧
    a.arg_target = Option.none ∧ a.arg_destination = Option.none) ∨
  (a.flag_encrypt = true ∧ a.arg_target.isSome = true ∧ a.flag_decrypt = false ∧
    a.flag_help = false ∧ a.arg_destination = Option.none) ∨
  (a.flag_decrypt = true ∧ a.arg_destination.isSome = true ∧ a.flag_encrypt = false ∧
    a.flag_help = false ∧ a.arg_target = Option.none)

theorem main_trace_mem (hash : List Nat → List Nat) (tempDir : List String)
    (args : Args) (fm : FaultModel) (fs : Fs) (e : Event)
    (he : e ∈ (main hash tempDir args fm fs).trace) :
    e ∈ (encryptBranch hash fm args ⟨pathPush tempDir "chunk_store_test/"⟩
      (pathPush (pathPush tempDir "chunk_store_test/") "data_map") fs).1.trace ∨
    e ∈ (decryptBranch hash fm args ⟨pathPush tempDir "chunk_store_test/"⟩
      (pathPush (pathPush tempDir "chunk_store_test/") "data_map")
      (encryptBranch hash fm args ⟨pathPush tempDir "chunk_store_test/"⟩
        (pathPush (pathPush tempDir "chunk_store_test/") "data_map") fs).1.fs).trace := by
  simp only [main] at he
  split at he
  · exact Or.inl he
  · split at he
    · simp only at he
      rcases List.mem_append.mp he with h | h
      · exact Or.inl h
      · exact Or.inr h
    · exact Or.inl he

/-- C5: under the argument shapes the usage patterns allow, at most one
action runs per invocation: no run both enters the encrypt branch and
enters the decrypt branch. -/
theorem C5_one_action_per_invocation (hash : List Nat → List Nat)
    (tempDir : List String) (args : Args) (fm : FaultModel) (fs : Fs)
    (hv : ArgsValid args) :
    ¬(Event.beginEncrypt ∈ (main hash tempDir args fm fs).trace ∧
      Event.beginDecrypt ∈ (main hash tempDir args fm fs).trace) := by
  rintro ⟨hE, hD⟩
  have hEenc : Event.beginEncrypt ∈ (encryptBranch hash fm args
      ⟨pathPush tempDir "chunk_store_test/"⟩
      (pathPush (pathPush tempDir "chunk_store_test/") "data_map") fs).1.trace := by
    rcases main_trace_mem hash tempDir args fm fs _ hE with h | h
    · exact h
    · exact absurd h (decryptBranch_trace_no_beginEncrypt hash fm args _ _ _)
  have hDdec : Event.beginDecrypt ∈ (decryptBranch hash fm args
      ⟨pathPush tempDir "chunk_store_test/"⟩
      (pathPush (pathPush tempDir "chunk_store_test/") "data_map")
      (encryptBranch hash fm args ⟨pathPush tempDir "chunk_store_test/"⟩
        (pathPush (pathPush tempDir "chunk_store_test/") "data_map") fs).1.fs).trace := by
    rcases main_trace_mem hash tempDir args fm fs _ hD with h | h
    · exact absurd h (encryptBranch_trace_no_beginDecrypt hash fm args _ _ _)
    · exact h
  have hge : (args.flag_encrypt && args.arg_target.isSome) = true := by
    cases hb : (args.flag_encrypt && args.arg_target.isSome) with
    | true => rfl
    | false =>
      rw [encryptBranch_guard_false hash fm args _ _ fs hb] at hEenc
      simp at hEenc
  have hgd : (args.flag_decrypt && args.arg_destination.isSome) = true := by
    cases hb : (args.flag_decrypt && args.arg_destination.isSome) with
    | true => rfl
    | false =>
      rw [decryptBranch_guard_false hash fm args _ _ _ hb] at hDdec
      simp at hDdec
  rw [Bool.and_eq_true] at hge hgd
  rcases hv with ⟨_, h2, _, _, _⟩ | ⟨_, _, h3, _, _⟩ | ⟨_, _, h3, _, _⟩
  · rw [h2] at hge; exact Bool.noConfusion hge.1
  · rw [h3] at hgd; exact Bool.noConfusion hgd.1
  · rw [h3] at hge; exact Bool.noConfusion hge.1

/-- Witness for C5 at a concrete valid invocation. -/
theorem C5_one_action_per_invocation_witness :
    ¬(Event.beginEncrypt ∈ (main (fun _ => [0]) ["tmp"]
        ⟨Option.none, some "o", false, true, false⟩ noFaults
        ⟨fun _ => Option.none⟩).trace ∧
      Event.beginDecrypt ∈ (main (fun _ => [0]) ["tmp"]
        ⟨Option.none, some "o", false, true, false⟩ noFaults
        ⟨fun _ => Option.none⟩).trace) :=
  C5_one_action_per_invocation (fun _ => [0]) ["tmp"]
    ⟨Option.none, some "o", false, true, false⟩ noFaults ⟨fun _ => Option.none⟩
    (Or.inr (Or.inr (by simp)))

/-- The ordering the spec's decrypt steps 5-6 describe: once the destination
file has been created, no further session chunk read happens — i.e. the full
read completed before the destination was opened. -/
def readCompletesBeforeCreate (tr : List Event) : Bool :=
  (tr.dropWhile fun e => !e.isCreateDest).all fun e => !e.isGetChunk

def c6Fs : Fs :=
  ⟨fun p =>
    if p = ["tmp", "chunk_store_test/", "data_map"]
      then some (serialise (DataMap.chunks [([0], 1)]))
    else if p = ["tmp", "chunk_store_test/", file_name [0]] then some [9]
    else Option.none⟩

/-- C6 counterexample: in a concrete decrypt run the destination file is
created first and the session chunk reads happen afterwards — the full
logical range is NOT read before the destination is opened (the source
calls `File::create` at line 252 and `se.read` at line 253). -/
theorem C6_counterexample :
    readCompletesBeforeCreate ((main (fun _ => [0]) ["tmp"]
        ⟨Option.none, some "out", false, true, false⟩ noFaults c6Fs).trace) = false ∧
    Event.getChunk ["tmp", "chunk_store_test/", file_name [0]] ∈
      (main (fun _ => [0]) ["tmp"]
        ⟨Option.none, some "out", false, true, false⟩ noFaults c6Fs).trace := by
  decide

theorem takeWhile_append_of_all {α : Type} (p : α → Bool) (l1 l2 : List α)
    (h : l1.all p = true) : (l1 ++ l2).takeWhile p = l1 ++ l2.takeWhile p := by
  induction l1 with
  | nil => simp
  | cons a t ih =>
    simp only [List.all_cons, Bool.and_eq_true] at h
    simp [List.takeWhile_cons, h.1, ih h.2]

theorem main_trace_cases (hash : List Nat → List Nat) (tempDir : List String)
    (args : Args) (fm : FaultModel) (fs : Fs) :
    (main hash tempDir args fm fs).trace =
      (encryptBranch hash fm args ⟨pathPush tempDir "chunk_store_test/"⟩
        (pathPush (pathPush tempDir "chunk_store_test/") "data_map") fs).1.trace ∨
    (main hash tempDir args fm fs).trace =
      (encryptBranch hash fm args ⟨pathPush tempDir "chunk_store_test/"⟩
        (pathPush (pathPush tempDir "chunk_store_test/") "data_map") fs).1.trace ++
      (decryptBranch hash fm args ⟨pathPush tempDir "chunk_store_test/"⟩
        (pathPush (pathPush tempDir "chunk_store_test/") "data_map")
        (encryptBranch hash fm args ⟨pathPush tempDir "chunk_store_test/"⟩
          (pathPush (pathPush tempDir "chunk_store_test/") "data_map") fs).1.fs).trace := by
  simp only [main]
  split
  · exact Or.inl rfl
  · split
    · exact Or.inr rfl
    · exact Or.inl rfl

theorem encryptBranch_trace_all_safe (hash : List Nat → List Nat) (fm : FaultModel)
    (args : Args) (storage : DiskBasedStorage) (dmf : List String) (fs : Fs)
    (p : Event → Bool) (h1 : p Event.beginEncrypt = true)
    (h2 : ∀ q, p (Event.putChunk q) = true) :
    (encryptBranch hash fm args storage dmf fs).1.trace.all p = true := by
  rw [List.all_eq_true]
  intro e he
  rcases encryptBranch_trace_shape hash fm args storage dmf fs e he with h | h
  · rw [h]; exact h1
  · match e, h with
    | Event.putChunk q, _ => exact h2 q

theorem put_msgs (fs : Fs) (fm : FaultModel) (s : DiskBasedStorage)
    (n d : List Nat) :
    (DiskBasedStorage.put fs fm s n d).2.1 = [] ∨
    (DiskBasedStorage.put fs fm s n d).2.1 = [Msg.chunkWritten (s.calculate_path n)] := by
  unfold DiskBasedStorage.put
  match hc : fm.createFault (s.calculate_path n) with
  | some e => simp [hc]
  | Option.none =>
    match hw : fm.writeFault (s.calculate_path n) with
    | some e => simp [hc, hw]
    | Option.none => simp [hc, hw]

theorem putChunks_msgs_chunkWritten (hash : List Nat → List Nat) (fm : FaultModel)
    (s : DiskBasedStorage) :
    ∀ (fs : Fs) (cs : List (List Nat)),
      ∀ m ∈ (putChunks hash fm s fs cs).msgs, ∃ q, m = Msg.chunkWritten q := by
  intro fs cs
  induction cs generalizing fs with
  | nil => intro m hm; exact absurd hm (List.not_mem_nil m)
  | cons c t ih =>
    intro m hm
    simp only [putChunks] at hm
    match hput : DiskBasedStorage.put fs fm s (DiskBasedStorage.generate_address hash c) c with
    | (fs1, ms, some err) =>
      rw [hput] at hm
      simp only at hm
      have hms : ms = [] ∨ ms = [Msg.chunkWritten
          (s.calculate_path (DiskBasedStorage.generate_address hash c))] := by
        have := put_msgs fs fm s (DiskBasedStorage.generate_address hash c) c
        rw [hput] at this
        exact this
      rcases hms with hms | hms
      · rw [hms] at hm; exact absurd hm (List.not_mem_nil m)
      · rw [hms] at hm; simp at hm; exact ⟨_, hm⟩
    | (fs1, ms, Option.none) =>
      rw [hput] at hm
      simp only at hm
      have hms : ms = [] ∨ ms = [Msg.chunkWritten
          (s.calculate_path (DiskBasedStorage.generate_address hash c))] := by
        have := put_msgs fs fm s (DiskBasedStorage.generate_address hash c) c
        rw [hput] at this
        exact this
      rcases List.mem_append.mp hm with hmm | hmm
      · rcases hms with hms | hms
        · rw [hms] at hmm; exact absurd hmm (List.not_mem_nil m)
        · rw [hms] at hmm; simp at hmm; exact ⟨_, hmm⟩
      · exact ih fs1 m hmm

theorem encryptBranch_no_failedToCreateDest (hash : List Nat → List Nat)
    (fm : FaultModel) (args : Args) (storage : DiskBasedStorage)
    (dmf : List String) (fs : Fs) (d : String) :
    Msg.failedToCreateDest d ∉ (encryptBranch hash fm args storage dmf fs).1.msgs := by
  intro hmem
  unfold encryptBranch at hmem
  simp only [SelfEncryptor.new, SelfEncryptor.close, SelfEncryptor.write] at hmem
  repeat' split at hmem
  all_goals
    first
    | exact absurd hmem (List.not_mem_nil _)
    | (simp only [List.mem_singleton] at hmem; exact Msg.noConfusion hmem)
    | (obtain ⟨q, hq⟩ := putChunks_msgs_chunkWritten hash fm storage _ _ _ hmem;
       exact Msg.noConfusion hq)
    | (rcases List.mem_append.mp hmem with hmm | hmm
       · obtain ⟨q, hq⟩ := putChunks_msgs_chunkWritten hash fm storage _ _ _ hmm
         exact Msg.noConfusion hq
       · simp only [List.mem_singleton] at hmm; exact Msg.noConfusion hmm)

theorem decryptBranch_createFail_no_reads (hash : List Nat → List Nat)
    (fm : FaultModel) (args : Args) (storage : DiskBasedStorage)
    (dmf : List String) (fs : Fs) (d : String) :
    Msg.failedToCreateDest d ∈ (decryptBranch hash fm args storage dmf fs).msgs →
      (decryptBranch hash fm args storage dmf fs).trace.all
        (fun e => !e.isGetChunk) = true := by
  unfold decryptBranch
  simp only [SelfEncryptor.new, SelfEncryptor.read]
  repeat' split
  all_goals intro hmem
  all_goals
    first
    | exact absurd hmem (List.not_mem_nil _)
    | (simp only [List.mem_singleton] at hmem; exact Msg.noConfusion hmem)
    | rfl

theorem takeWhile_eq_self_of_all {α : Type} (p : α → Bool) (l : List α)
    (h : l.all p = true) : l.takeWhile p = l := by
  have := takeWhile_append_of_all p l [] h
  simpa using this

theorem main_msgs_mem (hash : List Nat → List Nat) (tempDir : List String)
    (args : Args) (fm : FaultModel) (fs : Fs) (m : Msg)
    (hm : m ∈ (main hash tempDir args fm fs).msgs) :
    m = Msg.helpShown ∨
    m ∈ (encryptBranch hash fm args ⟨pathPush tempDir "chunk_store_test/"⟩
      (pathPush (pathPush tempDir "chunk_store_test/") "data_map") fs).1.msgs ∨
    m ∈ (decryptBranch hash fm args ⟨pathPush tempDir "chunk_store_test/"⟩
      (pathPush (pathPush tempDir "chunk_store_test/") "data_map")
      (encryptBranch hash fm args ⟨pathPush tempDir "chunk_store_test/"⟩
        (pathPush (pathPush tempDir "chunk_store_test/") "data_map") fs).1.fs).msgs := by
  have hhelp : ∀ x, x ∈ (if args.flag_help then [Msg.helpShown] else []) →
      x = Msg.helpShown := by
    intro x hx
    cases hh : args.flag_help with
    | true => rw [hh] at hx; simpa using hx
    | false => rw [hh] at hx; exact absurd hx (List.not_mem_nil x)
  simp only [main] at hm
  split at hm
  · simp only at hm
    rcases List.mem_append.mp hm with h | h
    · exact Or.inl (hhelp m h)
    · exact Or.inr (Or.inl h)
  · split at hm
    · simp only at hm
      rcases List.mem_append.mp hm with h | h
      · rcases List.mem_append.mp h with h2 | h2
        · exact Or.inl (hhelp m h2)
        · exact Or.inr (Or.inl h2)
      · exact Or.inr (Or.inr h)
    · simp only at hm
      rcases List.mem_append.mp hm with h | h
      · exact Or.inl (hhelp m h)
      · exact Or.inr (Or.inl h)

/-- C6 amended: in every run the destination file is created before any
session chunk read (no `getChunk` event precedes the first `createDest`
event — the source creates the destination at line 252 and reads the
session at lines 253-256, the reverse of the spec's step order), and when
creating the destination fails, the failure is reported and no session read
is performed at all. -/
theorem C6_create_before_read_amended (hash : List Nat → List Nat)
    (tempDir : List String) (args : Args) (fm : FaultModel) (fs : Fs) :
    (((main hash tempDir args fm fs).trace.takeWhile fun e => !e.isCreateDest).all
      fun e => !e.isGetChunk) = true ∧
    (∀ d, Msg.failedToCreateDest d ∈ (main hash tempDir args fm fs).msgs →
      ((main hash tempDir args fm fs).trace.all fun e => !e.isGetChunk) = true) := by
  have hEall1 : (encryptBranch hash fm args ⟨pathPush tempDir "chunk_store_test/"⟩
      (pathPush (pathPush tempDir "chunk_store_test/") "data_map") fs).1.trace.all
      (fun e => !e.isCreateDest) = true :=
    encryptBranch_trace_all_safe hash fm args _ _ fs _ rfl (fun _ => rfl)
  have hEall2 : (encryptBranch hash fm args ⟨pathPush tempDir "chunk_store_test/"⟩
      (pathPush (pathPush tempDir "chunk_store_test/") "data_map") fs).1.trace.all
      (fun e => !e.isGetChunk) = true :=
    encryptBranch_trace_all_safe hash fm args _ _ fs _ rfl (fun _ => rfl)
  constructor
  · rcases main_trace_cases hash tempDir args fm fs with h | h <;> rw [h]
    · rw [takeWhile_eq_self_of_all _ _ hEall1]
      exact hEall2
    · rw [takeWhile_append_of_all _ _ _ hEall1]
      rw [List.all_append, Bool.and_eq_true]
      refine ⟨hEall2, ?_⟩
      rcases decryptBranch_trace_cases hash fm args ⟨pathPush tempDir "chunk_store_test/"⟩
          (pathPush (pathPush tempDir "chunk_store_test/") "data_map") _
        with hd | hd | ⟨q, g, hd, hg⟩ <;> rw [hd]
      · rfl
      · rfl
      · rfl
  · intro d hd
    rcases main_msgs_mem hash tempDir args fm fs _ hd with h | h | h
    · exact Msg.noConfusion h
    · exact absurd h (encryptBranch_no_failedToCreateDest hash fm args _ _ fs d)
    · have hDall := decryptBranch_createFail_no_reads hash fm args
        ⟨pathPush tempDir "chunk_store_test/"⟩
        (pathPush (pathPush tempDir "chunk_store_test/") "data_map") _ d h
      rcases main_trace_cases hash tempDir args fm fs with ht | ht <;> rw [ht]
      · exact hEall2
      · rw [List.all_append, Bool.and_eq_true]
        exact ⟨hEall2, hDall⟩

def c6FmFail : FaultModel :=
  ⟨fun _ => Option.none, fun _ => Option.none,
   fun p => if p = ["out"] then some IoErrorKind.permissionDenied else Option.none,
   fun _ => Option.none, fun _ => Option.none⟩

/-- Witness for the amended C6: a run whose destination creation fails. -/
theorem C6_create_before_read_amended_witness :
    ((main (fun _ => [0]) ["tmp"] ⟨Option.none, some "out", false, true, false⟩
        c6FmFail c6Fs).trace.all fun e => !e.isGetChunk) = true :=
  (C6_create_before_read_amended (fun _ => [0]) ["tmp"]
    ⟨Option.none, some "out", false, true, false⟩ c6FmFail c6Fs).2 "out" (by decide)

/-- C7: when the opened source file's reported size exceeds `MAX_FILE_SIZE`,
the encrypt workflow reports the file-too-large message and returns before
any chunking: the run performs no chunk write (no `putChunk` event) and
leaves the filesystem — in particular the chunk store — unchanged. -/
theorem C7_too_large_no_chunk_writes (hash : List Nat → List Nat)
    (tempDir : List String) (args : Args) (fm : FaultModel) (fs : Fs)
    (t : String) (content : List Nat)
    (h1 : args.flag_encrypt = true) (h2 : args.arg_target = some t)
    (h3 : args.flag_help = false)
    (h4 : fm.openFault [t] = Option.none)
    (h5 : fs.files [t] = some content)
    (h6 : fm.metaFault [t] = Option.none)
    (h7 : content.length > MAX_FILE_SIZE) :
    main hash tempDir args fm fs =
      ⟨fs, [Event.beginEncrypt], [Msg.fileTooLarge content.length], Outcome.normal⟩ := by
  have henc : encryptBranch hash fm args ⟨pathPush tempDir "chunk_store_test/"⟩
      (pathPush (pathPush tempDir "chunk_store_test/") "data_map") fs =
      (⟨fs, [Event.beginEncrypt], [Msg.fileTooLarge content.length], Outcome.normal⟩,
       false) := by
    unfold encryptBranch
    rw [h2]
    simp only [h1, Option.isSome_some, Bool.and_self, if_true, Option.getD_some,
      h4, h5, h6, if_pos h7]
  simp only [main]
  rw [henc]
  simp only [h3]
  rfl

def c7Fs : Fs :=
  ⟨fun p => if p = ["f"] then some (List.replicate (MAX_FILE_SIZE + 1) 0)
   else Option.none⟩

/-- Witness for C7: a source file one byte over the limit. -/
theorem C7_too_large_no_chunk_writes_witness :
    main (fun _ => [0]) ["tmp"] ⟨some "f", Option.none, true, false, false⟩
      noFaults c7Fs =
      ⟨c7Fs, [Event.beginEncrypt],
       [Msg.fileTooLarge (List.replicate (MAX_FILE_SIZE + 1) 0).length],
       Outcome.normal⟩ :=
  C7_too_large_no_chunk_writes (fun _ => [0]) ["tmp"]
    ⟨some "f", Option.none, true, false, false⟩ noFaults c7Fs "f"
    (List.replicate (MAX_FILE_SIZE + 1) 0) rfl rfl rfl rfl
    (by simp [c7Fs]) rfl (by rw [List.length_replicate]; omega)

theorem decryptBranch_parse_fail (hash : List Nat → List Nat) (fm : FaultModel)
    (args : Args) (storage : DiskBasedStorage) (dmf : List String) (fs : Fs)
    (d : String) (bytes : List Nat)
    (h1 : args.flag_decrypt = true) (h2 : args.arg_destination = some d)
    (h3 : fm.openFault dmf = Option.none) (h4 : fs.files dmf = some bytes)
    (h5 : fm.readFault dmf = Option.none) (h6 : deserialise bytes = Option.none) :
    decryptBranch hash fm args storage dmf fs =
      ⟨fs, [Event.beginDecrypt], [Msg.failedToParseDataMap], Outcome.normal⟩ := by
  unfold decryptBranch
  rw [h2]
  simp only [h1, Option.isSome_some, Bool.and_self, if_true, Option.getD_some,
    h3, h4, h5, readToEnd, h6]

/-- C8: deserialisation accepts exactly the serialisations — whenever it
returns a data map, the input was that map's exact encoding (never a wrong
or partial structure) — every strict truncation of a valid encoding is
rejected, and a decrypt run whose data map bytes fail to parse reports the
possible-corruption message, returns normally (no panic), performs no
session read and leaves the filesystem unchanged. -/
theorem C8_malformed_data_map_rejected :
    (∀ bs m, deserialise bs = some m → bs = serialise m) ∧
    (∀ (m : DataMap) (k : Nat), k < (serialise m).length →
      deserialise ((serialise m).take k) = Option.none) ∧
    (∀ (hash : List Nat → List Nat) (tempDir : List String) (args : Args)
      (fm : FaultModel) (fs : Fs) (d : String) (bytes : List Nat),
      args.flag_decrypt = true → args.arg_destination = some d →
      (args.flag_encrypt && args.arg_target.isSome) = false →
      args.flag_help = false →
      fm.openFault (pathPush (pathPush tempDir "chunk_store_test/") "data_map") =
        Option.none →
      fs.files (pathPush (pathPush tempDir "chunk_store_test/") "data_map") =
        some bytes →
      fm.readFault (pathPush (pathPush tempDir "chunk_store_test/") "data_map") =
        Option.none →
      deserialise bytes = Option.none →
      main hash tempDir args fm fs =
        ⟨fs, [Event.beginDecrypt], [Msg.failedToParseDataMap], Outcome.normal⟩) := by
  refine ⟨deserialise_sound, deserialise_truncated, ?_⟩
  intro hash tempDir args fm fs d bytes h1 h2 hg hh h3 h4 h5 h6
  simp only [main]
  rw [encryptBranch_guard_false hash fm args _ _ fs hg]
  rw [decryptBranch_parse_fail hash fm args _ _ fs d bytes h1 h2 h3 h4 h5 h6]
  simp only [hh]
  rfl

def c8Fs : Fs :=
  ⟨fun p => if p = ["tmp", "chunk_store_test/", "data_map"] then some [2]
   else Option.none⟩

/-- Witness for C8: one malformed data map byte sequence. -/
theorem C8_malformed_data_map_rejected_witness :
    main (fun _ => [0]) ["tmp"] ⟨Option.none, some "o", false, true, false⟩
      noFaults c8Fs =
      ⟨c8Fs, [Event.beginDecrypt], [Msg.failedToParseDataMap], Outcome.normal⟩ :=
  C8_malformed_data_map_rejected.2.2 (fun _ => [0]) ["tmp"]
    ⟨Option.none, some "o", false, true, false⟩ noFaults c8Fs "o" [2]
    rfl rfl rfl rfl rfl (by decide) rfl (by decide)

/-- C9: the filename used within the storage directory is exactly the
lowercase hex encoding of the address's raw bytes — two hex characters per
byte from the alphabet 0-9a-f, no separators — and the path is that
filename inside the storage directory. `specHexFileName` restates the
spec's wording independently of the source's `to_hex` loop. -/
theorem C9_filename_is_lowercase_hex (s : DiskBasedStorage) (name : List Nat) :
    s.calculate_path name = s.storage_path ++ [file_name name] ∧
    file_name name = specHexFileName name := by
  refine ⟨calculate_path_eq s name, ?_⟩
  apply String.ext
  rw [file_name_data]
  show _ = ((name.map fun b =>
    [hexAlphabet.getD (b % 256 / 16) ' ', hexAlphabet.getD (b % 256 % 16) ' ']).flatten)
  congr 1
  apply List.map_congr_left
  intro b _
  rw [hexDigit_eq_getD _ (by omega), hexDigit_eq_getD _ (by omega)]

/-- C10: for every address byte sequence, the computed path is a direct
child of the configured storage directory — the filename is one component
appended to it — and that filename consists only of the characters 0-9 and
a-f, so it can contain no path separator. -/
theorem C10_path_stays_in_storage_dir (s : DiskBasedStorage) (name : List Nat) :
    s.calculate_path name = s.storage_path ++ [file_name name] ∧
    ∀ c ∈ (file_name name).data, c ∈ hexAlphabet :=
  ⟨calculate_path_eq s name, file_name_chars name⟩

/-- Witness for C10 at a concrete byte: the characters of the derived
filename really fall in the hex alphabet. -/
theorem C10_path_stays_in_storage_dir_witness : 'f' ∈ hexAlphabet :=
  (C10_path_stays_in_storage_dir ⟨["d"]⟩ [255]).2 'f' (by decide)
